import Mathlib

/-!
Shallow embedding of `sdn_controller.py`: a toy SDN controller consisting of a
weighted undirected graph (`Topology`) with Dijkstra shortest paths and a
single-edge-exclusion alternate-path search, per-switch flow tables with
replace-by-destination install semantics, and a controller that rebuilds all
forwarding state from the flow-intent registry on every change.

Python dictionaries are modelled as association lists with first-occurrence
lookup; `dset` mirrors `d[k] = v` (update in place, else append) and `ddel`
mirrors `del d[k]`.  The `heapq` priority queue is modelled by popping the
minimum `(distance, node)` pair under the lexicographic order, which is
exactly the element `heappop` returns since all queued pairs are distinct.
Operations that can raise `KeyError` in the source return `Except Unit`.
-/

namespace SDN

/-! ## Python dict operations on association lists -/
def dget {α β : Type} [DecidableEq α] : List (α × β) → α → Option β
  | [], _ => none
  | p :: ps, k => if p.1 = k then some p.2 else dget ps k

def dset {α β : Type} [DecidableEq α] : List (α × β) → α → β → List (α × β)
  | [], k, v => [(k, v)]
  | p :: ps, k, v => if p.1 = k then (k, v) :: ps else p :: dset ps k v

def ddel {α β : Type} [DecidableEq α] (l : List (α × β)) (k : α) : List (α × β) :=
  l.filter (fun p => decide (p.1 ≠ k))

@[simp] theorem dget_nil {α β : Type} [DecidableEq α] (k : α) :
    dget ([] : List (α × β)) k = none := rfl

@[simp] theorem dget_cons {α β : Type} [DecidableEq α] (a : α) (b : β)
    (ps : List (α × β)) (k : α) :
    dget ((a, b) :: ps) k = if a = k then some b else dget ps k := rfl

/-! ## Topology -/
abbrev Node := String

abbrev AdjList := List (Node × List (Node × Nat))

structure Topology where
  adj : AdjList
  deriving DecidableEq, Repr

def Topology.empty : Topology := ⟨[]⟩

/-- Source `Topology.add_node`: insert the node with an empty neighbour map if absent. -/
def Topology.add_node (t : Topology) (node : Node) : Topology :=
  if (dget t.adj node).isSome then t else ⟨t.adj ++ [(node, [])]⟩

/-- Source `self.adj[x][y] = w` (the key `x` is always present when the source runs
this; `getD []` keeps the model total). -/
def setDir (adj : AdjList) (x y : Node) (w : Nat) : AdjList :=
  dset adj x (dset ((dget adj x).getD []) y w)

/-- Source line `if y in self.adj.get(x, \x7b\x7d): del self.adj[x][y]`. -/
def delDir (adj : AdjList) (x y : Node) : AdjList :=
  match dget adj x with
  | some nbrs => if (dget nbrs y).isSome then dset adj x (ddel nbrs y) else adj
  | none => adj

/-- Source `Topology.add_link`: ensure both endpoints exist, then set the weight in
both adjacency directions. -/
def Topology.add_link (t : Topology) (src dst : Node) (weight : Nat) : Topology :=
  ⟨setDir (setDir ((t.add_node src).add_node dst).adj src dst weight) dst src weight⟩

/-- Source `Topology.remove_link`: delete each direction if present. -/
def Topology.remove_link (t : Topology) (src dst : Node) : Topology :=
  ⟨delDir (delDir t.adj src dst) dst src⟩

/-- Weight of the directed adjacency entry `u -> v`, `none` when absent
(Python `self.adj.get(u, \x7b\x7d).get(v)`). -/
def edgeW (t : Topology) (u v : Node) : Option Nat :=
  match dget t.adj u with
  | some nbrs => dget nbrs v
  | none => none

/-- Well-formedness maintained by the topology operations: symmetric weights
and every referenced neighbour present as a key. -/
def Topology.WF (t : Topology) : Prop :=
  (∀ u v, edgeW t u v = edgeW t v u) ∧
  (∀ u v, edgeW t u v ≠ none → (dget t.adj v).isSome = true)

/-! ### Dijkstra (`Topology.shortest_path`)

`dist` maps nodes to `Option Nat` (`none` = `float('inf')`), `prev` to
`Option Node`.  The priority queue holds `(tentative distance, node)` pairs;
`popMin` removes the lexicographically least pair, which is the pair
`heapq.heappop` returns (all pairs in the queue are distinct). -/
abbrev DistMap := List (Node × Option Nat)

abbrev PrevMap := List (Node × Option Node)

abbrev PQ := List (Nat × Node)

/-- Lexicographic string comparison by code point, as Python compares the
node components of heap tuples. -/
def chListLt : List Char → List Char → Bool
  | _, [] => false
  | [], _ :: _ => true
  | a :: as, b :: bs => a.toNat < b.toNat || (a == b && chListLt as bs)

def strLtB (a b : Node) : Bool := chListLt a.data b.data

def pqLt (a b : Nat × Node) : Bool :=
  a.1 < b.1 || (a.1 == b.1 && strLtB a.2 b.2)

def popMin : PQ → Option ((Nat × Node) × PQ)
  | [] => none
  | x :: xs =>
    match popMin xs with
    | none => some (x, [])
    | some (m, rest) => if pqLt m x then some (m, x :: rest) else some (x, xs)

/-- Comparison `alt < dist[v]` where `dist[v]` may be `float('inf')`. -/
def ltOpt (alt : Nat) : Option Nat → Bool
  | none => true
  | some dvn => alt < dvn

/-- Relax every outgoing edge of `u` (one pass of the inner `for` loop). -/
def relaxNbrs (du : Nat) (u : Node) :
    List (Node × Nat) → DistMap × PrevMap × PQ → DistMap × PrevMap × PQ
  | [], s => s
  | (v, w) :: rest, (dist, prev, pq) =>
    match dget dist v with
    | none =>
      -- source raises KeyError here; every queued neighbour of a WF topology is a dist key
      relaxNbrs du u rest (dist, prev, pq)
    | some dv =>
      let alt := du + w
      if ltOpt alt dv then
        relaxNbrs du u rest (dset dist v (some alt), dset prev v (some u), pq ++ [(alt, v)])
      else
        relaxNbrs du u rest (dist, prev, pq)

/-- The `while pq:` loop.  The fuel argument dominates the number of
iterations; each pop that survives the staleness check either stops at `dst`
or relaxes the popped node's neighbours. -/
def dloop (adj : AdjList) (dst : Node) :
    Nat → DistMap → PrevMap → PQ → DistMap × PrevMap
  | 0, dist, prev, _ => (dist, prev)
  | fuel + 1, dist, prev, pq =>
    match popMin pq with
    | none => (dist, prev)
    | some ((d, u), pq1) =>
      match dget dist u with
      | some (some du) =>
        if du < d then
          dloop adj dst fuel dist prev pq1
        else if u = dst then (dist, prev)
        else
          let s := relaxNbrs du u ((dget adj u).getD []) (dist, prev, pq1)
          dloop adj dst fuel s.1 s.2.1 s.2.2
      | _ =>
        -- dist[u] is infinite: `d > dist[u]` is false and every relaxation
        -- `inf + w < dist[v]` fails, so the body only tests `u == dst`
        if u = dst then (dist, prev) else dloop adj dst fuel dist prev pq1

/-- Follow predecessors from `dst` back to the root, accumulating the path in
reversed order (the Python `while u is not None` loop plus `reversed`). -/
def buildPath (prev : PrevMap) : Nat → Node → List Node → List Node
  | 0, _, acc => acc
  | fuel + 1, u, acc =>
    match dget prev u with
    | some (some p) => buildPath prev fuel p (u :: acc)
    | _ => u :: acc

def weightSum (t : Topology) : Nat :=
  (t.adj.map (fun p => p.2.foldl (fun acc q => acc + q.2) 0)).foldl (· + ·) 0

/-- Enough iterations for the Dijkstra loop: every push strictly lowers one
finite tentative distance, so the queue sees at most
`|V| * (total weight + 1) + 1` elements in the run. -/
def fuelFor (t : Topology) : Nat :=
  (t.adj.length + 1) * (weightSum t + 2)

/-- The Dijkstra main loop started from the initial `dist`/`prev`/`pq`. -/
def dijkstraRun (t : Topology) (src dst : Node) : DistMap × PrevMap :=
  dloop t.adj dst (fuelFor t)
    (dset (t.adj.map (fun p => (p.1, (none : Option Nat)))) src (some 0))
    (t.adj.map (fun p => (p.1, (none : Option Node))))
    [(0, src)]

def Topology.shortest_path (t : Topology) (src dst : Node) : Option (List Node) :=
  if (dget t.adj src).isSome = false ∨ (dget t.adj dst).isSome = false then none
  else
    match dget (dijkstraRun t src dst).1 dst with
    | some (some _) =>
      some (buildPath (dijkstraRun t src dst).2 ((dijkstraRun t src dst).2.length + 1) dst [])
    | _ => none

/-- Python truthiness of a `shortest_path` result (`not primary` is true for
both `None` and the empty list). -/
def optTruthy : Option (List Node) → Bool
  | none => false
  | some [] => false
  | some (_ :: _) => true

/-- Total weight of a path read off the current adjacency with default 0
(`sum(self.adj.get(alt[j], \x7b\x7d).get(alt[j+1], 0) ...)`). -/
def pathCost (t : Topology) : List Node → Nat
  | a :: b :: rest => (edgeW t a b).getD 0 + pathCost t (b :: rest)
  | _ => 0

/-- Comparison `cost < best_cost` where `best_cost` starts as `float('inf')`. -/
def ltBest (cost : Nat) : Option Nat → Bool
  | none => true
  | some b => cost < b

/-- One trial per consecutive pair of `primary`: temporarily remove the edge,
probe `shortest_path`, record a strictly cheaper candidate different from
`primary`, then restore the edge at its recorded weight.  Returns the
topology as left by the search together with the best candidate. -/
def sspGo (src dst : Node) (primary : List Node) :
    Topology → Option (List Node) → Option Nat → List Node →
    Topology × Option (List Node)
  | t, second, _, [] => (t, second)
  | t, second, _, [_] => (t, second)
  | t, second, best, u :: v :: rest =>
    match edgeW t u v with
    | none =>
      -- source raises KeyError (u absent) or re-adds the edge with weight None;
      -- every caller passes a primary whose consecutive pairs are existing links
      sspGo src dst primary t second best (v :: rest)
    | some w =>
      let t1 := t.remove_link u v
      let alt := t1.shortest_path src dst
      let next :=
        match alt with
        | some ap =>
          if ap ≠ [] ∧ ap ≠ primary then
            let cost := pathCost t1 ap
            if ltBest cost best then (some ap, some cost) else (second, best)
          else (second, best)
        | none => (second, best)
      sspGo src dst primary (t1.add_link u v w) next.1 next.2 (v :: rest)

def Topology.second_shortest_path (t : Topology) (src dst : Node)
    (primary_path : List Node) : Topology × Option (List Node) :=
  sspGo src dst primary_path t none none primary_path

/-! ## Flow entries, switches, intents, controller -/
structure FlowEntry where
  dst : Node
  next_hop : Node
  priority : Int
  deriving DecidableEq, Repr

structure Sw where
  name : Node
  flow_table : List FlowEntry
  deriving DecidableEq, Repr

/-- Source `Switch.install_flow`: drop every entry with the same destination, then
append the new entry. -/
def Sw.install_flow (sw : Sw) (fe : FlowEntry) : Sw :=
  { sw with flow_table := sw.flow_table.filter (fun e => decide (e.dst ≠ fe.dst)) ++ [fe] }

structure Intent where
  src : Node
  dst : Node
  priority : Int
  critical : Bool
  primary : List Node
  backup : Option (List Node)
  deriving DecidableEq, Repr

structure Controller where
  topo : Topology
  switches : List (Node × Sw)
  active_flows : List (String × Intent)
  lb_counters : List ((Node × Node) × Nat)
  link_util : List ((Node × Node) × Nat)
  deriving DecidableEq, Repr

def initController : Controller := ⟨Topology.empty, [], [], [], []⟩

/-- Path selection of `_install` together with the updated load-balance
counters (the only state the selection itself writes). -/
def chooseInstallPath (c : Controller) (m : Intent) :
    List Node × List ((Node × Node) × Nat) :=
  if m.critical && !(optTruthy (c.topo.shortest_path m.src m.dst)) && optTruthy m.backup then
    (m.backup.getD [], c.lb_counters)
  else if !m.critical && optTruthy m.backup then
    let key := (m.src, m.dst)
    let cnt := (dget c.lb_counters key).getD 0
    ((if cnt % 2 = 0 then m.primary else m.backup.getD []), dset c.lb_counters key (cnt + 1))
  else
    (m.primary, c.lb_counters)

/-- The install loop: write a flow entry for each hop and bump the directed
utilisation counter.  `self.switches[u]` and `self.link_util[(u, v)] += 1`
raise `KeyError` on missing keys, modelled as `Except.error`. -/
def installHops (c : Controller) (dst : Node) (prio : Int) :
    List Node → Except Unit Controller
  | u :: v :: rest =>
    match dget c.switches u, dget c.link_util (u, v) with
    | some sw, some n =>
      installHops
        { c with
          switches := dset c.switches u (sw.install_flow ⟨dst, v, prio⟩)
          link_util := dset c.link_util (u, v) (n + 1) }
        dst prio (v :: rest)
    | _, _ => .error ()
  | _ => .ok c

/-- Source `SDNController._install`. -/
def install (c : Controller) (m : Intent) : Except Unit Controller :=
  let pr := chooseInstallPath c m
  installHops { c with lb_counters := pr.2 } m.dst m.priority pr.1

/-- Stable insertion into a descending-priority list: an element passes every
earlier element of equal or higher priority, matching Python's stable
`sorted(..., key=lambda x: -x[1]['priority'])`. -/
def insertIntent (x : String × Intent) : List (String × Intent) → List (String × Intent)
  | [] => [x]
  | y :: ys => if x.2.priority > y.2.priority then x :: y :: ys else y :: insertIntent x ys

def sortIntents (l : List (String × Intent)) : List (String × Intent) :=
  l.foldl (fun acc x => insertIntent x acc) []

/-- Clear every flow table and zero every utilisation counter (the first half
of `recompute_flows`). -/
def clearC (c : Controller) : Controller :=
  { c with
    switches := c.switches.map (fun p => (p.1, { p.2 with flow_table := [] }))
    link_util := c.link_util.map (fun p => (p.1, 0)) }

/-- The per-intent loop of `recompute_flows`. -/
def foldInstall (ms : List (String × Intent)) (c : Controller) : Except Unit Controller :=
  ms.foldlM (fun acc fm => install acc fm.2) c

/-- Source `SDNController.recompute_flows`. -/
def recompute (c : Controller) : Except Unit Controller :=
  foldInstall (sortIntents c.active_flows) (clearC c)

/-- Source `SDNController.add_node`: registers the topology node and a fresh switch. -/
def addNodeC (c : Controller) (n : Node) : Controller :=
  { c with topo := c.topo.add_node n, switches := dset c.switches n ⟨n, []⟩ }

/-- Source `SDNController.add_link`: topology edge plus zeroed directed counters. -/
def addLinkC (c : Controller) (s d : Node) (w : Nat) : Controller :=
  { c with
    topo := c.topo.add_link s d w
    link_util := dset (dset c.link_util (s, d) 0) (d, s) 0 }

/-- Source `SDNController.remove_link`: drop the edge and its counters, then
recompute. -/
def removeLinkC (c : Controller) (s d : Node) : Except Unit Controller :=
  recompute
    { c with
      topo := c.topo.remove_link s d
      link_util := ddel (ddel c.link_util (s, d)) (d, s) }

/-- Source `SDNController.inject_flow`: no primary path means no state change;
otherwise compute the backup (which threads the topology through the
temporary removals), store the intent and recompute. -/
def injectFlow (c : Controller) (fid : String) (src dst : Node)
    (priority : Int) (critical : Bool) : Except Unit Controller :=
  if optTruthy (c.topo.shortest_path src dst) = false then .ok c
  else
    recompute
      { c with
        topo := (c.topo.second_shortest_path src dst
          ((c.topo.shortest_path src dst).getD [])).1
        active_flows := dset c.active_flows fid
          ⟨src, dst, priority, critical, (c.topo.shortest_path src dst).getD [],
           (c.topo.second_shortest_path src dst
             ((c.topo.shortest_path src dst).getD [])).2⟩ }

/-- The state-relevant controller entry points (`query_route`/`query_flow`
look up state, print and return; they never mutate and never raise). -/
inductive Op where
  | add_node (n : Node)
  | add_link (s d : Node) (w : Nat)
  | remove_link (s d : Node)
  | inject_flow (fid : String) (s d : Node) (p : Int) (critical : Bool)
  | query_route (s d : Node)
  | query_flow (fid : String)
  deriving DecidableEq, Repr

def step (c : Controller) : Op → Except Unit Controller
  | .add_node n => .ok (addNodeC c n)
  | .add_link s d w => .ok (addLinkC c s d w)
  | .remove_link s d => removeLinkC c s d
  | .inject_flow fid s d p cr => injectFlow c fid s d p cr
  | .query_route _ _ => .ok c
  | .query_flow _ => .ok c

def runOps (c : Controller) (ops : List Op) : Except Unit Controller :=
  ops.foldlM step c

def isError : Except Unit Controller → Bool
  | .error _ => true
  | .ok _ => false

def getOkD (e : Except Unit Controller) (dflt : Controller) : Controller :=
  match e with
  | .ok c => c
  | .error _ => dflt

instance : DecidableEq (Except Unit Controller) := fun a b =>
  match a, b with
  | .ok x, .ok y =>
    if h : x = y then .isTrue (by rw [h]) else .isFalse (fun hc => h (Except.ok.inj hc))
  | .error (), .error () => .isTrue rfl
  | .ok _, .error _ => .isFalse (by intro hc; cases hc)
  | .error _, .ok _ => .isFalse (by intro hc; cases hc)

/-! ## Concrete states used by the concrete theorems and witnesses -/
/-- The 4-node diamond A-B:1, B-D:1, A-C:1, C-D:1. -/
def diamondT : Topology :=
  ((((Topology.empty.add_link "A" "B" 1).add_link "B" "D" 1).add_link
    "A" "C" 1).add_link "C" "D" 1)

/-- Triangle A-B:1, B-C:1, A-C:2 with a critical flow A->C whose primary is
[A,C] and backup [A,B,C], followed by the removal of link A-C. -/
def crashOps : List Op :=
  [.add_node "A", .add_node "B", .add_node "C",
   .add_link "A" "B" 1, .add_link "B" "C" 1, .add_link "A" "C" 2,
   .inject_flow "f1" "A" "C" 0 true, .remove_link "A" "C"]

/-- The same triangle with a non-critical flow A->C (primary [A,C], backup
[A,B,C]). -/
def lbOps : List Op :=
  [.add_node "A", .add_node "B", .add_node "C",
   .add_link "A" "B" 1, .add_link "B" "C" 1, .add_link "A" "C" 2,
   .inject_flow "f1" "A" "C" 0 false]

def cLB1 : Controller := getOkD (runOps initController lbOps) initController

def cLB2 : Controller := getOkD (recompute cLB1) initController

def cLB3 : Controller := getOkD (recompute cLB2) initController

/-- A single link A-B with a non-critical flow A->B: no alternate path
exists, so the stored backup is `none`. -/
def noBackupOps : List Op :=
  [.add_node "A", .add_node "B", .add_link "A" "B" 1,
   .inject_flow "f1" "A" "B" 0 false]

def cNoB : Controller := getOkD (runOps initController noBackupOps) initController

/-- A critical intent used to instantiate the critical install decision. -/
def mCrit : Intent :=
  ⟨"A", "B", 0, true, ["A", "X", "B"], some ["A", "B"]⟩

/-- A single link A-B with a critical flow: no intent is non-critical with a
backup, so recompute is idempotent on this state. -/
def critOps : List Op :=
  [.add_node "A", .add_node "B", .add_link "A" "B" 1,
   .inject_flow "f1" "A" "B" 0 true]

def cCrit : Controller := getOkD (runOps initController critOps) initController

def cCrit2 : Controller := getOkD (recompute cCrit) initController

/-- A non-critical backed-up intent A->C decided against the `cLB1` state. -/
def mNC : Intent := ⟨"A", "C", 0, false, ["A", "C"], some ["A", "B", "C"]⟩

/-- Operations `add_node A` then `add_link A B`: B is routable but has no switch. -/
def crashFreeOps : List Op := [.add_node "A", .add_link "A" "B" 1]

def cFree : Controller := getOkD (runOps initController crashFreeOps) initController

def cW4 : Controller := getOkD (install cLB1 mNC) initController

/-! ## Shortest paths are valid paths -/
/-- A path in the spec's sense: every consecutive pair is an existing link. -/
def validIn (t : Topology) (p : List Node) : Prop :=
  List.Chain' (fun a b => edgeW t a b ≠ none) p

/-- Executable check for `validIn`. -/
def validB (t : Topology) : List Node → Bool
  | a :: b :: rest => (edgeW t a b).isSome && validB t (b :: rest)
  | _ => true

instance (t : Topology) (p : List Node) : Decidable (validIn t p) :=
  decidable_of_iff (validB t p = true) (by
    induction p with
    | nil => simp [validB, validIn]
    | cons a rest ih =>
      cases rest with
      | nil => simp [validB, validIn]
      | cons b rest2 =>
        rw [validB]
        unfold validIn at ih ⊢
        rw [List.chain'_cons, Bool.and_eq_true, Option.isSome_iff_ne_none, ih])

/-- Every recorded predecessor edge is a real directed adjacency entry. -/
def PrevOk (t : Topology) (prev : PrevMap) : Prop :=
  ∀ v u, dget prev v = some (some u) → edgeW t u v ≠ none

/-! ## Flow tables after recompute: last writer wins -/
/-- The `(switch, entry)` writes produced by the install loop on one path. -/
def hopWrites (d : Node) (prio : Int) : List Node → List (Node × FlowEntry)
  | u :: v :: rest => (u, ⟨d, v, prio⟩) :: hopWrites d prio (v :: rest)
  | _ => []

/-- The full write sequence of a recompute pass over the sorted intents,
following the same decisions and intermediate states as the pass itself. -/
def writeLog : Controller → List (String × Intent) → List (Node × FlowEntry)
  | _, [] => []
  | c, fm :: rest =>
    hopWrites fm.2.dst fm.2.priority (chooseInstallPath c fm.2).1 ++
      (match install c fm.2 with
       | .ok c' => writeLog c' rest
       | .error _ => [])

def recomputeLog (c : Controller) : List (Node × FlowEntry) :=
  writeLog (clearC c) (sortIntents c.active_flows)

/-- Entries with destination `d` in `u`'s flow table. -/
def tblFilter (c : Controller) (u d : Node) : List FlowEntry :=
  match dget c.switches u with
  | some sw => sw.flow_table.filter (fun e => e.dst == d)
  | none => []

/-- Replay semantics of replace-by-destination installs: the last write wins,
and with no write the old entries persist. -/
def lastd (old : List FlowEntry) : List FlowEntry → List FlowEntry
  | [] => old
  | e :: ws => lastd [e] ws

theorem dget_dset {α β : Type} [DecidableEq α] (l : List (α × β)) (k : α) (v : β) (k' : α) :
    dget (dset l k v) k' = if k' = k then some v else dget l k' := by
  induction l with
  | nil =>
    by_cases h : k' = k
    · subst h; simp [dset]
    · have h2 : ¬ k = k' := fun hc => h hc.symm
      simp [dset, h, h2]
  | cons p ps ih =>
    obtain ⟨a, b⟩ := p
    by_cases ha : a = k
    · subst ha
      by_cases h : k' = a
      · subst h; simp [dset]
      · have h2 : ¬ a = k' := fun hc => h hc.symm
        simp [dset, h, h2]
    · by_cases h : a = k'
      · subst h
        have h2 : ¬ a = k := ha
        simp [dset, ha, h2]
      · simp [dset, ha, h, ih]

theorem dget_ddel {α β : Type} [DecidableEq α] (l : List (α × β)) (k k' : α) :
    dget (ddel l k) k' = if k' = k then none else dget l k' := by
  induction l with
  | nil => simp [ddel]
  | cons p ps ih =>
    obtain ⟨a, b⟩ := p
    by_cases ha : a = k
    · subst ha
      by_cases h : k' = a
      · subst h
        simp [ddel, List.filter_cons] at ih ⊢
        simp [ih]
      · have h2 : ¬ a = k' := fun hc => h hc.symm
        simp [ddel, List.filter_cons] at ih ⊢
        simp [ih, h, h2]
    · by_cases h : a = k'
      · subst h
        have hne : ¬ a = k := ha
        simp [ddel, List.filter_cons, ha, hne]
      · simp [ddel, List.filter_cons, ha, h] at ih ⊢
        simp [ih, h]

theorem dset_self {α β : Type} [DecidableEq α] (l : List (α × β)) (k : α) (v : β)
    (h : dget l k = some v) : dset l k v = l := by
  induction l with
  | nil => simp at h
  | cons p ps ih =>
    obtain ⟨a, b⟩ := p
    by_cases ha : a = k
    · subst ha
      simp at h
      simp [dset, h]
    · simp [ha] at h
      simp [dset, ha, ih h]

theorem dget_map {α β γ : Type} [DecidableEq α] (f : β → γ) (l : List (α × β)) (k : α) :
    dget (l.map (fun p => (p.1, f p.2))) k = (dget l k).map f := by
  induction l with
  | nil => simp
  | cons p ps ih =>
    obtain ⟨a, b⟩ := p
    by_cases h : a = k <;> simp [h, ih]

theorem map_dset {α β γ : Type} [DecidableEq α] (f : β → γ) (l : List (α × β))
    (k : α) (v : β) :
    (dset l k v).map (fun p => (p.1, f p.2)) = dset (l.map (fun p => (p.1, f p.2))) k (f v) := by
  induction l with
  | nil => simp [dset]
  | cons p ps ih =>
    obtain ⟨a, b⟩ := p
    by_cases h : a = k <;> simp [dset, h, ih]

theorem dget_append {α β : Type} [DecidableEq α] (l₁ l₂ : List (α × β)) (k : α) :
    dget (l₁ ++ l₂) k = ((dget l₁ k).orElse (fun _ => dget l₂ k)) := by
  induction l₁ with
  | nil => simp
  | cons p ps ih =>
    obtain ⟨a, b⟩ := p
    by_cases h : a = k <;> simp [h, ih]

/-! ## Claims -/
/-- C8: on the diamond built from links A-B:1, B-D:1, A-C:1, C-D:1 the
implementation deterministically returns the 3-node, weight-2 path
[A, B, D] (the heap breaks the A-B/A-C distance tie towards the
lexicographically smaller node B). -/
theorem c8_diamond_shortest :
    Topology.shortest_path diamondT "A" "D" = some ["A", "B", "D"] ∧
    (["A", "B", "D"] : List Node).length = 3 ∧
    pathCost diamondT ["A", "B", "D"] = 2 := by
  refine ⟨by decide, rfl, by decide⟩

/-- C6: when no primary path exists at injection time, `inject_flow` leaves
the whole controller state unchanged — no intent is stored, no flow table or
counter is touched and no recompute runs. -/
theorem c6_no_path_inject_noop (c : Controller) (fid : String) (src dst : Node)
    (p : Int) (cr : Bool) (h : optTruthy (c.topo.shortest_path src dst) = false) :
    injectFlow c fid src dst p cr = .ok c := by
  unfold injectFlow
  simp [h]

theorem c6_witness :
    optTruthy (initController.topo.shortest_path "A" "B") = false ∧
    injectFlow initController "f9" "A" "B" 3 true = .ok initController :=
  ⟨by decide, c6_no_path_inject_noop initController "f9" "A" "B" 3 true (by decide)⟩

/-- C3: for a critical intent the install decision picks the stored backup
exactly when the reachability probe fails and a backup is present, and the
stored primary verbatim in every other case; it never touches the
load-balance counters. -/
theorem c3_critical_decision (c : Controller) (m : Intent) (h : m.critical = true) :
    (chooseInstallPath c m).1 =
      (if optTruthy (c.topo.shortest_path m.src m.dst) = false ∧ optTruthy m.backup = true
       then m.backup.getD []
       else m.primary) ∧
    (chooseInstallPath c m).2 = c.lb_counters := by
  unfold chooseInstallPath
  by_cases h1 : optTruthy (c.topo.shortest_path m.src m.dst) = false <;>
    by_cases h2 : optTruthy m.backup = true <;>
      simp_all [h]

theorem c3_witness :
    mCrit.critical = true ∧
    ((chooseInstallPath initController mCrit).1 =
      (if optTruthy (initController.topo.shortest_path mCrit.src mCrit.dst) = false ∧
          optTruthy mCrit.backup = true
       then mCrit.backup.getD []
       else mCrit.primary) ∧
     (chooseInstallPath initController mCrit).2 = initController.lb_counters) :=
  ⟨rfl, c3_critical_decision initController mCrit rfl⟩

/-- C1: the concrete run of `crashOps` refutes crash-freedom: after
`remove_link("A","C")` pops the `(A,C)` utilisation keys, the triggered
recompute still routes the critical intent over its stale primary `[A,C]`
(the reachability probe succeeds via B), and `self.link_util[("A","C")] += 1`
raises an uncaught `KeyError`. -/
theorem c1_stale_primary_crash :
    isError (runOps initController crashOps) = true := by decide

/-- C2 counterexample: with one non-critical backed-up intent, a second
`recompute()` with no intervening change flips the shared parity counter and
installs the backup instead of the primary, so the flow tables differ. -/
theorem c2_counterexample :
    recompute cLB1 = .ok cLB2 ∧ recompute cLB2 = .ok cLB3 ∧
    cLB2.switches ≠ cLB3.switches := by
  refine ⟨by decide, by decide, by decide⟩

/-- C9 counterexample: a non-critical intent with no backup is installed by
recompute (its flow entry is present), yet the load-balance counter for its
(src, dst) pair is never created or incremented. -/
theorem c9_counterexample :
    runOps initController noBackupOps = .ok cNoB ∧
    dget cNoB.active_flows "f1" =
      some ⟨"A", "B", 0, false, ["A", "B"], none⟩ ∧
    dget cNoB.switches "A" =
      some ⟨"A", [⟨"B", "B", 0⟩]⟩ ∧
    dget cNoB.lb_counters ("A", "B") = none := by
  refine ⟨by decide, by decide, by decide, by decide⟩

/-! ## Preservation lemmas for the install loop and recompute -/
theorem clearSwL_dset (l : List (Node × Sw)) (u : Node) (sw : Sw) (fe : FlowEntry)
    (h : dget l u = some sw) :
    (dset l u (sw.install_flow fe)).map
        (fun p => (p.1, { p.2 with flow_table := ([] : List FlowEntry) })) =
      l.map (fun p => (p.1, { p.2 with flow_table := ([] : List FlowEntry) })) := by
  induction l with
  | nil => simp at h
  | cons p ps ih =>
    obtain ⟨a, b⟩ := p
    by_cases ha : a = u
    · subst ha
      simp at h
      subst h
      simp [dset, Sw.install_flow]
    · simp [ha] at h
      simp [dset, ha, ih h]

theorem zeroUtilL_dset (l : List ((Node × Node) × Nat)) (k : Node × Node) (n m : Nat)
    (h : dget l k = some n) :
    (dset l k m).map (fun p => (p.1, (0 : Nat))) = l.map (fun p => (p.1, (0 : Nat))) := by
  induction l with
  | nil => simp at h
  | cons p ps ih =>
    obtain ⟨a, b⟩ := p
    by_cases ha : a = k
    · subst ha
      simp [dset]
    · simp [ha] at h
      simp [dset, ha, ih h]

theorem installHops_clear (path : List Node) :
    ∀ (c c' : Controller) (d : Node) (pr : Int),
      installHops c d pr path = .ok c' → clearC c' = clearC c := by
  induction path with
  | nil =>
    intro c c' d pr h
    simp [installHops] at h
    rw [h]
  | cons u rest ih =>
    cases rest with
    | nil =>
      intro c c' d pr h
      simp [installHops] at h
      rw [h]
    | cons v rest2 =>
      intro c c' d pr h
      rw [installHops] at h
      rcases hsw : dget c.switches u with _ | sw <;> rw [hsw] at h
      · cases h
      rcases hut : dget c.link_util (u, v) with _ | n <;> rw [hut] at h
      · cases h
      have hmid := ih _ _ _ _ h
      rw [hmid]
      simp only [clearC]
      rw [clearSwL_dset _ _ _ _ hsw, zeroUtilL_dset _ _ _ _ hut]

theorem install_clear (c c' : Controller) (m : Intent) (h : install c m = .ok c') :
    clearC c' = { clearC c with lb_counters := (chooseInstallPath c m).2 } := by
  unfold install at h
  exact installHops_clear _ _ _ _ _ h

theorem install_pres (c c' : Controller) (m : Intent) (h : install c m = .ok c') :
    c'.topo = c.topo ∧ c'.active_flows = c.active_flows ∧
      c'.lb_counters = (chooseInstallPath c m).2 := by
  have hc := install_clear c c' m h
  have h1 := congrArg Controller.topo hc
  have h2 := congrArg Controller.active_flows hc
  have h3 := congrArg Controller.lb_counters hc
  exact ⟨h1, h2, h3⟩

/-- Critical intents, and intents without a (truthy) backup, never touch the
load-balance counters. -/
theorem choose_lb_skip (c : Controller) (m : Intent)
    (H : m.critical = true ∨ optTruthy m.backup = false) :
    (chooseInstallPath c m).2 = c.lb_counters := by
  unfold chooseInstallPath
  rcases H with h | h <;>
    by_cases h1 : optTruthy (c.topo.shortest_path m.src m.dst) <;>
      by_cases h2 : optTruthy m.backup <;> simp_all

/-- Exact effect of one install decision on one load-balance counter. -/
theorem choose_lb_count (c : Controller) (m : Intent) (k : Node × Node) :
    (dget (chooseInstallPath c m).2 k).getD 0 =
      (dget c.lb_counters k).getD 0 +
        (if (!m.critical && optTruthy m.backup && decide ((m.src, m.dst) = k)) = true
         then 1 else 0) := by
  unfold chooseInstallPath
  by_cases hcrit : m.critical
  · by_cases hprobe : optTruthy (c.topo.shortest_path m.src m.dst) <;>
      by_cases hback : optTruthy m.backup <;> simp [hcrit, hprobe, hback]
  · by_cases hback : optTruthy m.backup
    · simp only [hcrit, hback, Bool.false_and, Bool.not_false, Bool.true_and,
        Bool.and_true, if_false, Bool.false_eq_true, ite_false, ite_true]
      rw [dget_dset]
      by_cases hk : k = (m.src, m.dst)
      · subst hk
        simp
      · have hk2 : ¬ (m.src, m.dst) = k := fun hc => hk hc.symm
        simp [hk, hk2]
    · simp [hcrit, hback]

theorem foldInstall_nil (c : Controller) : foldInstall [] c = .ok c := rfl

theorem foldInstall_ok_cons (fm : String × Intent) (ms : List (String × Intent))
    (c c' : Controller) (h : foldInstall (fm :: ms) c = .ok c') :
    ∃ c1, install c fm.2 = .ok c1 ∧ foldInstall ms c1 = .ok c' := by
  unfold foldInstall at h ⊢
  rw [List.foldlM_cons] at h
  cases hi : install c fm.2 with
  | error e => rw [hi] at h; cases h
  | ok c1 =>
    rw [hi] at h
    exact ⟨c1, rfl, h⟩

theorem foldInstall_clear (ms : List (String × Intent)) :
    ∀ (c0 c1 : Controller),
      (∀ fm ∈ ms, fm.2.critical = true ∨ optTruthy fm.2.backup = false) →
      foldInstall ms c0 = .ok c1 → clearC c1 = clearC c0 := by
  induction ms with
  | nil =>
    intro c0 c1 _ h
    rw [foldInstall_nil] at h
    injection h with h2
    rw [h2]
  | cons fm ms ih =>
    intro c0 c1 H h
    obtain ⟨cm, hi, hrest⟩ := foldInstall_ok_cons fm ms c0 c1 h
    have hskip : (chooseInstallPath c0 fm.2).2 = c0.lb_counters :=
      choose_lb_skip c0 fm.2 (H fm (List.mem_cons_self fm ms))
    have hcl : clearC cm = clearC c0 := by
      rw [install_clear c0 cm fm.2 hi, hskip]
      rfl
    rw [ih cm c1 (fun g hg => H g (List.mem_cons_of_mem fm hg)) hrest, hcl]

theorem foldInstall_lb (ms : List (String × Intent)) :
    ∀ (c0 c1 : Controller) (k : Node × Node),
      foldInstall ms c0 = .ok c1 →
      (dget c1.lb_counters k).getD 0 =
        (dget c0.lb_counters k).getD 0 +
          ms.countP (fun fm => !fm.2.critical && optTruthy fm.2.backup &&
            decide ((fm.2.src, fm.2.dst) = k)) := by
  induction ms with
  | nil =>
    intro c0 c1 k h
    rw [foldInstall_nil] at h
    injection h with h2
    rw [h2]
    simp
  | cons fm ms ih =>
    intro c0 c1 k h
    obtain ⟨cm, hi, hrest⟩ := foldInstall_ok_cons fm ms c0 c1 h
    have h1 : cm.lb_counters = (chooseInstallPath c0 fm.2).2 := (install_pres _ _ _ hi).2.2
    have h2 := choose_lb_count c0 fm.2 k
    have h3 := ih cm c1 k hrest
    rw [h3, h1, h2, List.countP_cons]
    omega

theorem clearC_idem (c : Controller) : clearC (clearC c) = clearC c := by
  simp [clearC, List.map_map, Function.comp]

theorem insertIntent_perm (x : String × Intent) (l : List (String × Intent)) :
    (insertIntent x l).Perm (x :: l) := by
  induction l with
  | nil => exact List.Perm.refl _
  | cons y ys ih =>
    unfold insertIntent
    by_cases h : x.2.priority > y.2.priority
    · simp [h]
    · simp only [if_neg h]
      exact ((ih.cons y).trans (List.Perm.swap x y ys))

theorem foldl_insert_perm (l : List (String × Intent)) :
    ∀ acc, (l.foldl (fun a x => insertIntent x a) acc).Perm (acc ++ l) := by
  induction l with
  | nil => intro acc; simp
  | cons x xs ih =>
    intro acc
    have h1 := ih (insertIntent x acc)
    have h2 : (insertIntent x acc ++ xs).Perm ((x :: acc) ++ xs) :=
      (insertIntent_perm x acc).append_right xs
    have h3 : ((x :: acc) ++ xs).Perm (acc ++ x :: xs) := by
      simpa using List.perm_middle.symm
    exact (h1.trans h2).trans h3

theorem sortIntents_perm (l : List (String × Intent)) : (sortIntents l).Perm l := by
  simpa [sortIntents] using foldl_insert_perm l []

/-- C2 (amended): when no active intent is both non-critical and backed up, a
second `recompute()` reproduces the first one's state exactly, and the
load-balance counters do not move (consistent with the parity rule, which
only advances counters of non-critical backed-up intents). -/
theorem c2_recompute_idempotent_no_lb (c c₁ : Controller)
    (H : ∀ fm ∈ c.active_flows, fm.2.critical = true ∨ optTruthy fm.2.backup = false)
    (h : recompute c = .ok c₁) :
    recompute c₁ = .ok c₁ ∧ c₁.lb_counters = c.lb_counters := by
  have hs : ∀ fm ∈ sortIntents c.active_flows,
      fm.2.critical = true ∨ optTruthy fm.2.backup = false :=
    fun fm hm => H fm ((sortIntents_perm c.active_flows).mem_iff.mp hm)
  unfold recompute at h
  have hcl : clearC c₁ = clearC c :=
    (foldInstall_clear _ _ _ hs h).trans (clearC_idem c)
  have hflow0 := congrArg Controller.active_flows hcl
  have hflow : c₁.active_flows = c.active_flows := hflow0
  have hlb0 := congrArg Controller.lb_counters hcl
  have hlb : c₁.lb_counters = c.lb_counters := hlb0
  refine ⟨?_, hlb⟩
  unfold recompute
  rw [hflow, hcl]
  exact h

theorem c2_witness :
    (∀ fm ∈ cCrit.active_flows, fm.2.critical = true ∨ optTruthy fm.2.backup = false) ∧
    recompute cCrit = .ok cCrit2 ∧
    (recompute cCrit2 = .ok cCrit2 ∧ cCrit2.lb_counters = cCrit.lb_counters) :=
  ⟨by decide, by decide, c2_recompute_idempotent_no_lb cCrit cCrit2 (by decide) (by decide)⟩

/-- C9 (amended): recompute adds to each (src,dst) load-balance counter
exactly the number of active non-critical intents with that (src,dst) pair
that carry a backup; in particular nothing is ever reset, and non-critical
intents without a backup contribute nothing. -/
theorem c9_lb_increment_exact (c c' : Controller) (h : recompute c = .ok c')
    (k : Node × Node) :
    (dget c'.lb_counters k).getD 0 =
      (dget c.lb_counters k).getD 0 +
        c.active_flows.countP (fun fm => !fm.2.critical && optTruthy fm.2.backup &&
          decide ((fm.2.src, fm.2.dst) = k)) := by
  unfold recompute at h
  have h1 := foldInstall_lb _ _ _ k h
  rw [h1, (sortIntents_perm c.active_flows).countP_eq]
  rfl

theorem c9_witness :
    recompute cLB1 = .ok cLB2 ∧
    (dget cLB2.lb_counters ("A", "C")).getD 0 =
      (dget cLB1.lb_counters ("A", "C")).getD 0 +
        cLB1.active_flows.countP (fun fm => !fm.2.critical && optTruthy fm.2.backup &&
          decide ((fm.2.src, fm.2.dst) = ("A", "C"))) :=
  ⟨by decide, c9_lb_increment_exact cLB1 cLB2 (by decide) ("A", "C")⟩

/-- C4: a non-critical intent with a backup is routed by the parity of the
shared (src,dst) load-balance counter, which is then incremented by one and
left untouched at every other key; a second same-pair non-critical backed-up
intent decided against the updated state sees the incremented counter, so
the two alternate collectively. -/
theorem c4_lb_decision (c c' : Controller) (m : Intent)
    (h1 : m.critical = false) (h2 : optTruthy m.backup = true)
    (h3 : install c m = .ok c') :
    (chooseInstallPath c m).1 =
      (if (dget c.lb_counters (m.src, m.dst)).getD 0 % 2 = 0 then m.primary
       else m.backup.getD []) ∧
    dget c'.lb_counters (m.src, m.dst) =
      some ((dget c.lb_counters (m.src, m.dst)).getD 0 + 1) ∧
    (∀ k, k ≠ (m.src, m.dst) → dget c'.lb_counters k = dget c.lb_counters k) ∧
    (∀ m₂ : Intent, m₂.critical = false → optTruthy m₂.backup = true →
      m₂.src = m.src → m₂.dst = m.dst →
      (chooseInstallPath c' m₂).1 =
        (if ((dget c.lb_counters (m.src, m.dst)).getD 0 + 1) % 2 = 0 then m₂.primary
         else m₂.backup.getD [])) := by
  have hlb : c'.lb_counters = (chooseInstallPath c m).2 := (install_pres _ _ _ h3).2.2
  have hch : chooseInstallPath c m =
      ((if (dget c.lb_counters (m.src, m.dst)).getD 0 % 2 = 0 then m.primary
        else m.backup.getD []),
       dset c.lb_counters (m.src, m.dst)
         ((dget c.lb_counters (m.src, m.dst)).getD 0 + 1)) := by
    unfold chooseInstallPath
    simp [h1, h2]
  refine ⟨by rw [hch], ?_, ?_, ?_⟩
  · rw [hlb, hch]
    simp [dget_dset]
  · intro k hk
    rw [hlb, hch]
    simp [dget_dset, hk]
  · intro m₂ g1 g2 g3 g4
    unfold chooseInstallPath
    simp only [g1, g2, g3, g4, Bool.not_false, Bool.false_and, Bool.and_true,
      Bool.true_and, if_false, Bool.false_eq_true, ite_false]
    rw [hlb, hch]
    simp [dget_dset]

theorem c4_witness :
    mNC.critical = false ∧ optTruthy mNC.backup = true ∧ install cLB1 mNC = .ok cW4 ∧
    ((chooseInstallPath cLB1 mNC).1 =
      (if (dget cLB1.lb_counters (mNC.src, mNC.dst)).getD 0 % 2 = 0 then mNC.primary
       else mNC.backup.getD []) ∧
     dget cW4.lb_counters (mNC.src, mNC.dst) =
       some ((dget cLB1.lb_counters (mNC.src, mNC.dst)).getD 0 + 1) ∧
     (∀ k, k ≠ (mNC.src, mNC.dst) → dget cW4.lb_counters k = dget cLB1.lb_counters k) ∧
     (∀ m₂ : Intent, m₂.critical = false → optTruthy m₂.backup = true →
       m₂.src = mNC.src → m₂.dst = mNC.dst →
       (chooseInstallPath cW4 m₂).1 =
         (if ((dget cLB1.lb_counters (mNC.src, mNC.dst)).getD 0 + 1) % 2 = 0 then m₂.primary
          else m₂.backup.getD []))) :=
  ⟨rfl, rfl, by decide, c4_lb_decision cLB1 cW4 mNC rfl rfl (by decide)⟩

/-! ## Pointwise characterisation of the topology operations -/
theorem edgeW_eq_getD (t : Topology) (u v : Node) :
    edgeW t u v = dget ((dget t.adj u).getD []) v := by
  unfold edgeW
  rcases dget t.adj u with _ | nbrs <;> simp

theorem edgeW_setDir (adj : AdjList) (x y : Node) (w : Nat) (u v : Node) :
    edgeW ⟨setDir adj x y w⟩ u v = if u = x ∧ v = y then some w else edgeW ⟨adj⟩ u v := by
  unfold edgeW setDir
  simp only [dget_dset]
  by_cases hu : u = x
  · subst hu
    simp only [if_pos rfl, true_and, if_true]
    by_cases hv : v = y
    · simp [hv, dget_dset]
    · simp only [if_neg hv, if_true]
      rw [dget_dset, if_neg hv]
      rcases hh : dget adj u with _ | nbrs <;> simp [hh]
  · simp [hu]

theorem edgeW_delDir (adj : AdjList) (x y : Node) (u v : Node) :
    edgeW ⟨delDir adj x y⟩ u v = if u = x ∧ v = y then none else edgeW ⟨adj⟩ u v := by
  unfold edgeW delDir
  rcases hx : dget adj x with _ | nbrs
  · by_cases h : u = x ∧ v = y
    · obtain ⟨rfl, rfl⟩ := h
      simp [hx]
    · simp [h]
  · by_cases hin : (dget nbrs y).isSome = true
    · simp only [hx, hin, if_true, dget_dset]
      by_cases hu : u = x
      · subst hu
        simp only [if_pos rfl, true_and, if_true]
        by_cases hv : v = y
        · simp [hv, dget_ddel]
        · rw [if_neg hv, dget_ddel, if_neg hv, hx]
      · simp [hu]
    · have hn : dget nbrs y = none := Option.not_isSome_iff_eq_none.mp (by simpa using hin)
      simp only [hx, hin, Bool.false_eq_true, if_false]
      by_cases h : u = x ∧ v = y
      · obtain ⟨rfl, rfl⟩ := h
        simp [hx, hn]
      · simp [h]

theorem keys_setDir (adj : AdjList) (x y : Node) (w : Nat) (n : Node) :
    (dget (setDir adj x y w) n).isSome = true ↔ (n = x ∨ (dget adj n).isSome = true) := by
  unfold setDir
  rw [dget_dset]
  by_cases h : n = x <;> simp [h]

theorem keys_delDir (adj : AdjList) (x y : Node) (n : Node) :
    (dget (delDir adj x y) n).isSome = (dget adj n).isSome := by
  unfold delDir
  rcases hx : dget adj x with _ | nbrs
  · rfl
  · by_cases hin : (dget nbrs y).isSome = true
    · simp only [hin, if_true, dget_dset]
      by_cases h : n = x <;> simp [h, hx]
    · simp [hin]

theorem edgeW_add_node (t : Topology) (x u v : Node) :
    edgeW (t.add_node x) u v = edgeW t u v := by
  unfold Topology.add_node edgeW
  by_cases hx : (dget t.adj x).isSome
  · simp [hx]
  · simp only [hx, Bool.false_eq_true, if_false, dget_append]
    rcases hu : dget t.adj u with _ | nbrs
    · by_cases h : x = u <;> simp [h, Option.orElse]
    · simp [Option.orElse]

theorem keys_add_node (t : Topology) (x n : Node) :
    (dget (t.add_node x).adj n).isSome = true ↔ (n = x ∨ (dget t.adj n).isSome = true) := by
  unfold Topology.add_node
  by_cases hx : (dget t.adj x).isSome
  · simp only [hx, if_true]
    constructor
    · exact fun h => Or.inr h
    · rintro (rfl | h)
      · exact hx
      · exact h
  · simp only [hx, Bool.false_eq_true, if_false, dget_append]
    rcases hn : dget t.adj n with _ | nbrs
    · by_cases h : x = n <;> simp [h, Option.orElse, eq_comm]
    · simp [Option.orElse]

theorem mk_adj_eta (t : Topology) : (⟨t.adj⟩ : Topology) = t := rfl

theorem edgeW_add_link (t : Topology) (a b : Node) (w : Nat) (u v : Node) :
    edgeW (t.add_link a b w) u v =
      if (u = a ∧ v = b) ∨ (u = b ∧ v = a) then some w else edgeW t u v := by
  unfold Topology.add_link
  rw [edgeW_setDir, edgeW_setDir, mk_adj_eta, edgeW_add_node, edgeW_add_node]
  by_cases h1 : u = b ∧ v = a <;> by_cases h2 : u = a ∧ v = b <;> simp [h1, h2]

theorem keys_add_link (t : Topology) (a b : Node) (w : Nat) (n : Node) :
    (dget (t.add_link a b w).adj n).isSome = true ↔
      (n = a ∨ n = b ∨ (dget t.adj n).isSome = true) := by
  unfold Topology.add_link
  rw [show (⟨setDir (setDir ((t.add_node a).add_node b).adj a b w) b a w⟩ :
      Topology).adj = setDir (setDir ((t.add_node a).add_node b).adj a b w) b a w from rfl]
  rw [keys_setDir, keys_setDir, keys_add_node, keys_add_node]
  tauto

theorem edgeW_remove (t : Topology) (a b : Node) (u v : Node) :
    edgeW (t.remove_link a b) u v =
      if (u = a ∧ v = b) ∨ (u = b ∧ v = a) then none else edgeW t u v := by
  unfold Topology.remove_link
  rw [edgeW_delDir, edgeW_delDir, mk_adj_eta]
  by_cases h1 : u = b ∧ v = a <;> by_cases h2 : u = a ∧ v = b <;> simp [h1, h2]

theorem keys_remove (t : Topology) (a b : Node) (n : Node) :
    (dget (t.remove_link a b).adj n).isSome = (dget t.adj n).isSome := by
  unfold Topology.remove_link
  rw [show (⟨delDir (delDir t.adj a b) b a⟩ : Topology).adj =
      delDir (delDir t.adj a b) b a from rfl]
  rw [keys_delDir, keys_delDir]

theorem WF_ext (t t' : Topology) (he : ∀ u v, edgeW t' u v = edgeW t u v)
    (hk : ∀ n, (dget t'.adj n).isSome = (dget t.adj n).isSome) (h : t.WF) : t'.WF :=
  ⟨fun u v => by rw [he, he]; exact h.1 u v,
   fun u v hne => by rw [hk]; exact h.2 u v (by rwa [he] at hne)⟩

theorem WF_empty : Topology.empty.WF :=
  ⟨fun _ _ => rfl, fun _ _ h => absurd rfl h⟩

theorem WF_add_node (t : Topology) (x : Node) (h : t.WF) : (t.add_node x).WF := by
  refine ⟨fun u v => ?_, fun u v hne => ?_⟩
  · rw [edgeW_add_node, edgeW_add_node]
    exact h.1 u v
  · rw [edgeW_add_node] at hne
    exact (keys_add_node t x v).mpr (Or.inr (h.2 u v hne))

theorem WF_add_link (t : Topology) (a b : Node) (w : Nat) (h : t.WF) :
    (t.add_link a b w).WF := by
  refine ⟨fun u v => ?_, fun u v hne => ?_⟩
  · rw [edgeW_add_link, edgeW_add_link]
    by_cases hc : (u = a ∧ v = b) ∨ (u = b ∧ v = a)
    · have hc' : (v = a ∧ u = b) ∨ (v = b ∧ u = a) := by tauto
      simp [hc, hc']
    · have hc' : ¬ ((v = a ∧ u = b) ∨ (v = b ∧ u = a)) := by tauto
      simp [hc, hc', h.1 u v]
  · rw [edgeW_add_link] at hne
    apply (keys_add_link t a b w v).mpr
    by_cases hc : (u = a ∧ v = b) ∨ (u = b ∧ v = a)
    · rcases hc with ⟨_, rfl⟩ | ⟨_, rfl⟩
      · exact Or.inr (Or.inl rfl)
      · exact Or.inl rfl
    · rw [if_neg hc] at hne
      exact Or.inr (Or.inr (h.2 u v hne))

theorem WF_remove_link (t : Topology) (a b : Node) (h : t.WF) :
    (t.remove_link a b).WF := by
  refine ⟨fun u v => ?_, fun u v hne => ?_⟩
  · rw [edgeW_remove, edgeW_remove]
    by_cases hc : (u = a ∧ v = b) ∨ (u = b ∧ v = a)
    · have hc' : (v = a ∧ u = b) ∨ (v = b ∧ u = a) := by tauto
      simp [hc, hc']
    · have hc' : ¬ ((v = a ∧ u = b) ∨ (v = b ∧ u = a)) := by tauto
      simp [hc, hc', h.1 u v]
  · rw [edgeW_remove] at hne
    rw [keys_remove]
    by_cases hc : (u = a ∧ v = b) ∨ (u = b ∧ v = a)
    · rw [if_pos hc] at hne
      exact absurd rfl hne
    · rw [if_neg hc] at hne
      exact h.2 u v hne

/-- Restoring a removed edge at its original weight is pointwise invisible. -/
theorem edgeW_restore (t : Topology) (a b : Node) (w : Nat)
    (hw : edgeW t a b = some w) (hsym : edgeW t b a = some w) (u v : Node) :
    edgeW ((t.remove_link a b).add_link a b w) u v = edgeW t u v := by
  rw [edgeW_add_link, edgeW_remove]
  by_cases hc : (u = a ∧ v = b) ∨ (u = b ∧ v = a)
  · rw [if_pos hc]
    rcases hc with ⟨rfl, rfl⟩ | ⟨rfl, rfl⟩
    · exact hw.symm
    · exact hsym.symm
  · rw [if_neg hc, if_neg hc]

theorem keys_restore (t : Topology) (a b : Node) (w : Nat)
    (ha : (dget t.adj a).isSome = true) (hb : (dget t.adj b).isSome = true) (n : Node) :
    (dget ((t.remove_link a b).add_link a b w).adj n).isSome = (dget t.adj n).isSome := by
  by_cases hn : (dget t.adj n).isSome = true
  · rw [hn]
    apply (keys_add_link _ a b w n).mpr
    rw [keys_remove]
    exact Or.inr (Or.inr hn)
  · have h2 : ¬ (dget ((t.remove_link a b).add_link a b w).adj n).isSome = true := by
      intro hc
      rcases (keys_add_link _ a b w n).mp hc with rfl | rfl | hc2
      · exact hn ha
      · exact hn hb
      · rw [keys_remove] at hc2
        exact hn hc2
    simp only [Bool.not_eq_true] at hn h2
    rw [hn, h2]

theorem dget_map_const {α β γ : Type} [DecidableEq α] (l : List (α × β)) (c : γ) (k : α)
    (x : γ) (h : dget (l.map (fun p => (p.1, c))) k = some x) : x = c := by
  induction l with
  | nil => cases h
  | cons p ps ih =>
    obtain ⟨a, b⟩ := p
    by_cases ha : a = k
    · simp [ha] at h
      exact h.symm
    · simp [ha] at h
      exact ih h

theorem dget_ne_none_of_mem {α β : Type} [DecidableEq α] (l : List (α × β)) (a : α) (b : β)
    (h : (a, b) ∈ l) : dget l a ≠ none := by
  induction l with
  | nil => cases h
  | cons p ps ih =>
    obtain ⟨x, y⟩ := p
    by_cases hx : x = a
    · simp [hx]
    · rcases List.mem_cons.mp h with he | hm
      · cases he
        exact absurd rfl hx
      · simpa [hx] using ih hm

theorem adj_mem_edge (t : Topology) (u : Node) (vw : Node × Nat)
    (hm : vw ∈ (dget t.adj u).getD []) : edgeW t u vw.1 ≠ none := by
  rw [edgeW_eq_getD]
  exact dget_ne_none_of_mem _ vw.1 vw.2 (by simpa using hm)

theorem relaxNbrs_prevOk (t : Topology) (du : Nat) (u : Node) :
    ∀ (nbrs : List (Node × Nat)) (s : DistMap × PrevMap × PQ),
      (∀ vw ∈ nbrs, edgeW t u vw.1 ≠ none) →
      PrevOk t s.2.1 → PrevOk t (relaxNbrs du u nbrs s).2.1 := by
  intro nbrs
  induction nbrs with
  | nil => intro s _ hp; exact hp
  | cons vw rest ih =>
    obtain ⟨v, w⟩ := vw
    intro s hn hp
    obtain ⟨dist, prev, pq⟩ := s
    rw [relaxNbrs]
    rcases hv : dget dist v with _ | dv
    · exact ih _ (fun q hq => hn q (List.mem_cons_of_mem _ hq)) hp
    · by_cases hlt : ltOpt (du + w) dv = true
      · simp only [hlt, if_true]
        refine ih _ (fun q hq => hn q (List.mem_cons_of_mem _ hq)) ?_
        intro v' u' h'
        rw [dget_dset] at h'
        by_cases hv' : v' = v
        · rw [if_pos hv'] at h'
          obtain rfl : u = u' := by injection h' with h''; injection h''
          subst hv'
          exact hn (v', w) (List.mem_cons_self _ _)
        · rw [if_neg hv'] at h'
          exact hp v' u' h'
      · simp only [hlt, Bool.false_eq_true, if_false]
        exact ih _ (fun q hq => hn q (List.mem_cons_of_mem _ hq)) hp

theorem dloop_prevOk (t : Topology) (dst : Node) :
    ∀ (fuel : Nat) (dist : DistMap) (prev : PrevMap) (pq : PQ),
      PrevOk t prev → PrevOk t (dloop t.adj dst fuel dist prev pq).2 := by
  intro fuel
  induction fuel with
  | zero => intro dist prev pq hp; exact hp
  | succ fuel ih =>
    intro dist prev pq hp
    rw [dloop]
    rcases hpop : popMin pq with _ | du_pq
    · exact hp
    obtain ⟨⟨d, u⟩, pq1⟩ := du_pq
    rcases hdu : dget dist u with _ | odu
    · simp only [hpop, hdu]
      by_cases hud : u = dst
      · simp only [if_pos hud]
        exact hp
      · simp only [if_neg hud]
        exact ih dist prev pq1 hp
    · cases odu with
      | none =>
        simp only [hpop, hdu]
        by_cases hud : u = dst
        · simp only [if_pos hud]
          exact hp
        · simp only [if_neg hud]
          exact ih dist prev pq1 hp
      | some du =>
        simp only [hpop, hdu]
        by_cases h1 : du < d
        · simp only [if_pos h1]
          exact ih dist prev pq1 hp
        · simp only [if_neg h1]
          by_cases hud : u = dst
          · simp only [if_pos hud]
            exact hp
          · simp only [if_neg hud]
            exact ih _ _ _
              (relaxNbrs_prevOk t du u ((dget t.adj u).getD []) (dist, prev, pq1)
                (fun q hq => adj_mem_edge t u q hq) hp)

theorem buildPath_chain (t : Topology) (prev : PrevMap) (hprev : PrevOk t prev) :
    ∀ (fuel : Nat) (u : Node) (acc : List Node),
      List.Chain' (fun a b => edgeW t a b ≠ none) (u :: acc) →
      List.Chain' (fun a b => edgeW t a b ≠ none) (buildPath prev fuel u acc) := by
  intro fuel
  induction fuel with
  | zero => intro u acc h; exact h.tail
  | succ fuel ih =>
    intro u acc h
    rw [buildPath]
    rcases hp : dget prev u with _ | op
    · exact h
    cases op with
    | none => exact h
    | some p =>
      exact ih p (u :: acc) (List.chain'_cons.mpr ⟨hprev u p hp, h⟩)

theorem shortest_path_valid (t : Topology) (src dst : Node) (p : List Node)
    (h : t.shortest_path src dst = some p) : validIn t p := by
  unfold Topology.shortest_path at h
  split at h
  · cases h
  · have hprev0 : PrevOk t (t.adj.map (fun q => (q.1, (none : Option Node)))) := by
      intro v u hv
      have := dget_map_const t.adj (none : Option Node) v (some u) hv
      cases this
    have hrun : PrevOk t (dijkstraRun t src dst).2 := by
      unfold dijkstraRun
      exact dloop_prevOk t dst _ _ _ _ hprev0
    split at h
    · injection h with h2
      rw [← h2]
      exact buildPath_chain t _ hrun _ dst [] (List.chain'_singleton dst)
    · cases h

/-! ## The alternate-path search: frame and validity -/
theorem edge_key (t : Topology) (u v : Node) (h : edgeW t u v ≠ none) :
    (dget t.adj u).isSome = true := by
  unfold edgeW at h
  rcases hu : dget t.adj u with _ | nbrs
  · rw [hu] at h
    exact absurd rfl h
  · simp [hu]

theorem sspGo_spec (src dst : Node) (primary : List Node) (t0 : Topology) :
    ∀ (suffix : List Node) (tc : Topology) (second : Option (List Node)) (best : Option Nat),
      tc.WF →
      (∀ u v, edgeW tc u v = edgeW t0 u v) →
      (∀ n, (dget tc.adj n).isSome = (dget t0.adj n).isSome) →
      (second = none ∨ ∃ q, second = some q ∧ q ≠ primary ∧ validIn t0 q) →
      (∀ u v, edgeW (sspGo src dst primary tc second best suffix).1 u v = edgeW t0 u v) ∧
      (∀ n, (dget (sspGo src dst primary tc second best suffix).1.adj n).isSome
          = (dget t0.adj n).isSome) ∧
      ((sspGo src dst primary tc second best suffix).2 = none ∨
        ∃ q, (sspGo src dst primary tc second best suffix).2 = some q ∧
          q ≠ primary ∧ validIn t0 q) := by
  intro suffix
  induction suffix with
  | nil =>
    intro tc second best _ hext hkeys hsec
    exact ⟨hext, hkeys, hsec⟩
  | cons u rest ih =>
    cases rest with
    | nil =>
      intro tc second best _ hext hkeys hsec
      exact ⟨hext, hkeys, hsec⟩
    | cons v rest2 =>
      intro tc second best hWFc hext hkeys hsec
      rw [sspGo]
      rcases hw : edgeW tc u v with _ | w
      · simp only [hw]
        exact ih tc second best hWFc hext hkeys hsec
      · simp only [hw]
        have hne : edgeW tc u v ≠ none := by
          rw [hw]
          exact Option.some_ne_none w
        have hw' : edgeW tc v u = some w := by
          rw [← hWFc.1 u v]
          exact hw
        have hku : (dget tc.adj u).isSome = true := edge_key tc u v hne
        have hkv : (dget tc.adj v).isSome = true := hWFc.2 u v hne
        have hres : ∀ x y, edgeW ((tc.remove_link u v).add_link u v w) x y = edgeW tc x y :=
          edgeW_restore tc u v w hw hw'
        have hkres : ∀ n, (dget ((tc.remove_link u v).add_link u v w).adj n).isSome
            = (dget tc.adj n).isSome := keys_restore tc u v w hku hkv
        have hWF2 : ((tc.remove_link u v).add_link u v w).WF := WF_ext tc _ hres hkres hWFc
        have hext2 : ∀ x y, edgeW ((tc.remove_link u v).add_link u v w) x y = edgeW t0 x y :=
          fun x y => (hres x y).trans (hext x y)
        have hkeys2 : ∀ n, (dget ((tc.remove_link u v).add_link u v w).adj n).isSome
            = (dget t0.adj n).isSome := fun n => (hkres n).trans (hkeys n)
        rcases halt : (tc.remove_link u v).shortest_path src dst with _ | ap
        · simp only [halt]
          exact ih _ _ _ hWF2 hext2 hkeys2 hsec
        · simp only [halt]
          by_cases hcond : ap ≠ [] ∧ ap ≠ primary
          · simp only [if_pos hcond]
            by_cases hlt : ltBest (pathCost (tc.remove_link u v) ap) best = true
            · simp only [hlt, if_true]
              apply ih _ _ _ hWF2 hext2 hkeys2
              right
              refine ⟨ap, rfl, hcond.2, ?_⟩
              have hv1 : validIn (tc.remove_link u v) ap :=
                shortest_path_valid _ _ _ _ halt
              have hv2 : validIn tc ap := by
                refine hv1.imp (fun a b hne2 => ?_)
                rw [edgeW_remove] at hne2
                by_cases hc2 : (a = u ∧ b = v) ∨ (a = v ∧ b = u)
                · rw [if_pos hc2] at hne2
                  exact absurd rfl hne2
                · rwa [if_neg hc2] at hne2
              refine hv2.imp (fun a b hne2 => ?_)
              rw [← hext a b]
              exact hne2
            · simp only [hlt, Bool.false_eq_true, if_false]
              exact ih _ _ _ hWF2 hext2 hkeys2 hsec
          · simp only [if_neg hcond]
            exact ih _ _ _ hWF2 hext2 hkeys2 hsec

/-- C7: with a well-formed topology and a primary whose consecutive pairs are
existing links, the single-edge-exclusion search leaves the topology
pointwise unchanged (every temporarily removed edge restored at its original
weight, no node added or removed), and its result is absent or a path that
differs from `primary` and is valid in the unmodified topology. -/
theorem c7_alternate_path_valid (t : Topology) (src dst : Node) (primary : List Node)
    (hWF : t.WF) (_hp : validIn t primary) :
    (∀ u v, edgeW (t.second_shortest_path src dst primary).1 u v = edgeW t u v) ∧
    (∀ n, (dget (t.second_shortest_path src dst primary).1.adj n).isSome
        = (dget t.adj n).isSome) ∧
    ((t.second_shortest_path src dst primary).2 = none ∨
      ∃ q, (t.second_shortest_path src dst primary).2 = some q ∧
        q ≠ primary ∧ validIn t q) := by
  unfold Topology.second_shortest_path
  exact sspGo_spec src dst primary t primary t none none hWF
    (fun _ _ => rfl) (fun _ => rfl) (Or.inl rfl)

theorem c7_witness :
    diamondT.WF ∧ validIn diamondT ["A", "B", "D"] ∧
    ((∀ u v, edgeW (diamondT.second_shortest_path "A" "D" ["A", "B", "D"]).1 u v
        = edgeW diamondT u v) ∧
     (∀ n, (dget (diamondT.second_shortest_path "A" "D" ["A", "B", "D"]).1.adj n).isSome
        = (dget diamondT.adj n).isSome) ∧
     ((diamondT.second_shortest_path "A" "D" ["A", "B", "D"]).2 = none ∨
       ∃ q, (diamondT.second_shortest_path "A" "D" ["A", "B", "D"]).2 = some q ∧
         q ≠ ["A", "B", "D"] ∧ validIn diamondT q)) := by
  have hwf : diamondT.WF :=
    WF_add_link _ "C" "D" 1 (WF_add_link _ "A" "C" 1
      (WF_add_link _ "B" "D" 1 (WF_add_link _ "A" "B" 1 WF_empty)))
  exact ⟨hwf, by decide,
    c7_alternate_path_valid diamondT "A" "D" ["A", "B", "D"] hwf (by decide)⟩

theorem lastd_nil (old : List FlowEntry) : lastd old [] = old := rfl

theorem lastd_cons (old : List FlowEntry) (e : FlowEntry) (ws : List FlowEntry) :
    lastd old (e :: ws) = lastd [e] ws := rfl

theorem lastd_append (old : List FlowEntry) (w1 w2 : List FlowEntry) :
    lastd old (w1 ++ w2) = lastd (lastd old w1) w2 := by
  induction w1 generalizing old with
  | nil => rfl
  | cons e w1' ih =>
    rw [List.cons_append, lastd_cons, ih, lastd_cons]

theorem lastd_eq_aux (ws : List FlowEntry) :
    ∀ (e : FlowEntry) (old : List FlowEntry),
      lastd old (e :: ws) = ((e :: ws).getLast?).toList := by
  induction ws with
  | nil => intro e old; rfl
  | cons x xs ih =>
    intro e old
    rw [lastd_cons, ih x [e], List.getLast?_cons_cons]

theorem lastd_nil_eq (ws : List FlowEntry) : lastd [] ws = ws.getLast?.toList := by
  cases ws with
  | nil => rfl
  | cons e xs => exact lastd_eq_aux xs e []

theorem installHops_tbl (path : List Node) :
    ∀ (c c' : Controller) (d0 : Node) (pr : Int),
      installHops c d0 pr path = .ok c' →
      ∀ u d, tblFilter c' u d =
        lastd (tblFilter c u d)
          (((hopWrites d0 pr path).filter
            (fun w0 => w0.1 == u && w0.2.dst == d)).map Prod.snd) := by
  induction path with
  | nil =>
    intro c c' d0 pr h u d
    have h3 : Except.ok (ε := Unit) c = .ok c' := h
    injection h3 with h2
    rw [h2]
    rfl
  | cons u0 rest ih =>
    cases rest with
    | nil =>
      intro c c' d0 pr h u d
      have h3 : Except.ok (ε := Unit) c = .ok c' := h
      injection h3 with h2
      rw [h2]
      rfl
    | cons v rest2 =>
      intro c c' d0 pr h u d
      rw [installHops] at h
      rcases hsw : dget c.switches u0 with _ | sw <;> rw [hsw] at h
      · cases h
      rcases hut : dget c.link_util (u0, v) with _ | n <;> rw [hut] at h
      · cases h
      have hmid := ih _ _ _ _ h u d
      rw [hmid, hopWrites]
      by_cases hu : u0 = u
      · subst hu
        have htm : tblFilter
            { c with
              switches := dset c.switches u0 ((sw.install_flow ⟨d0, v, pr⟩))
              link_util := dset c.link_util (u0, v) (n + 1) } u0 d =
            (sw.install_flow ⟨d0, v, pr⟩).flow_table.filter (fun e => e.dst == d) := by
          unfold tblFilter
          rw [dget_dset, if_pos rfl]
        by_cases hd : d0 = d
        · subst hd
          rw [List.filter_cons_of_pos (by simp)]
          rw [List.map_cons, lastd_cons, htm]
          congr 1
          unfold Sw.install_flow
          rw [List.filter_append, List.filter_filter]
          rw [List.filter_cons_of_pos (by simp), List.filter_nil]
          rw [show (List.filter (fun a => a.dst == d0 && decide (a.dst ≠ d0))
              sw.flow_table) = [] from ?_]
          · rfl
          · apply List.filter_eq_nil_iff.mpr
            intro a _
            by_cases hb : a.dst = d0 <;> simp [hb]
        · rw [List.filter_cons_of_neg (by simp [hd])]
          rw [htm]
          congr 1
          unfold Sw.install_flow
          rw [List.filter_append, List.filter_filter]
          rw [List.filter_cons_of_neg (by simp [hd]), List.filter_nil, List.append_nil]
          unfold tblFilter
          rw [hsw]
          apply List.filter_congr
          intro a _
          by_cases hb : a.dst = d
          · have h5 : a.dst ≠ d0 := by rw [hb]; exact fun hc => hd hc.symm
            have h6 : ¬ d = d0 := fun hc => hd hc.symm
            simp [hb, h5, h6]
          · simp [hb]
      · rw [List.filter_cons_of_neg (by simp [hu])]
        congr 1
        unfold tblFilter
        rw [dget_dset, if_neg (fun hc => hu hc.symm)]

theorem install_tbl (c c' : Controller) (m : Intent) (h : install c m = .ok c')
    (u d : Node) :
    tblFilter c' u d =
      lastd (tblFilter c u d)
        (((hopWrites m.dst m.priority (chooseInstallPath c m).1).filter
          (fun w0 => w0.1 == u && w0.2.dst == d)).map Prod.snd) := by
  unfold install at h
  exact installHops_tbl _ _ _ _ _ h u d

theorem foldInstall_tbl (ms : List (String × Intent)) :
    ∀ (c0 c1 : Controller), foldInstall ms c0 = .ok c1 →
      ∀ u d, tblFilter c1 u d =
        lastd (tblFilter c0 u d)
          (((writeLog c0 ms).filter
            (fun w0 => w0.1 == u && w0.2.dst == d)).map Prod.snd) := by
  induction ms with
  | nil =>
    intro c0 c1 h u d
    rw [foldInstall_nil] at h
    injection h with h2
    rw [h2, writeLog]
    simp [lastd_nil]
  | cons fm rest ih =>
    intro c0 c1 h u d
    obtain ⟨cm, hi, hrest⟩ := foldInstall_ok_cons fm rest c0 c1 h
    rw [writeLog]
    rw [hi]
    rw [List.filter_append, List.map_append, lastd_append]
    rw [ih cm c1 hrest u d, install_tbl c0 cm fm.2 hi u d]

theorem dget_clearSw (l : List (Node × Sw)) (u : Node) :
    dget (l.map (fun p => (p.1, { p.2 with flow_table := ([] : List FlowEntry) }))) u =
      (dget l u).map (fun s => { s with flow_table := ([] : List FlowEntry) }) := by
  induction l with
  | nil => simp
  | cons p ps ih =>
    obtain ⟨a, b⟩ := p
    by_cases h : a = u <;> simp [h, ih]

/-- C5: after a successful recompute, the entries with destination `d` on
switch `u` are exactly the last write among the write sequence the pass
produced in descending-priority order — each install replaces by destination
regardless of the priorities stored in the entries, so a lower-priority
intent processed later overwrites a higher-priority one. -/
theorem c5_last_writer_wins (c c' : Controller) (h : recompute c = .ok c')
    (u : Node) (sw : Sw) (d : Node) (hu : dget c'.switches u = some sw) :
    sw.flow_table.filter (fun e => e.dst == d) =
      (((recomputeLog c).filter
        (fun w0 => w0.1 == u && w0.2.dst == d)).map Prod.snd).getLast?.toList := by
  unfold recompute at h
  have hmain := foldInstall_tbl _ _ _ h u d
  have hcl : tblFilter (clearC c) u d = [] := by
    unfold tblFilter clearC
    rw [dget_clearSw]
    rcases dget c.switches u with _ | sw0 <;> simp
  have hctbl : tblFilter c' u d = sw.flow_table.filter (fun e => e.dst == d) := by
    unfold tblFilter
    rw [hu]
  rw [hctbl, hcl, lastd_nil_eq] at hmain
  exact hmain

theorem c5_witness :
    recompute cLB1 = .ok cLB2 ∧
    dget cLB2.switches "A" = some ⟨"A", [⟨"C", "B", 0⟩]⟩ ∧
    (⟨"A", [⟨"C", "B", 0⟩]⟩ : Sw).flow_table.filter (fun e => e.dst == "C") =
      (((recomputeLog cLB1).filter
        (fun w0 => w0.1 == "A" && w0.2.dst == "C")).map Prod.snd).getLast?.toList :=
  ⟨by decide, by decide,
    c5_last_writer_wins cLB1 cLB2 (by decide) "A" ⟨"A", [⟨"C", "B", 0⟩]⟩ "C" (by decide)⟩

/-! ## Which nodes have switches, which are topology keys -/
theorem install_keys (c c' : Controller) (m : Intent) (h : install c m = .ok c') :
    c'.topo = c.topo ∧ c'.active_flows = c.active_flows ∧
      ∀ n, (dget c'.switches n).isSome = (dget c.switches n).isSome := by
  have hc := install_clear c c' m h
  refine ⟨(install_pres c c' m h).1, (install_pres c c' m h).2.1, fun n => ?_⟩
  have h1 := congrArg Controller.switches hc
  have h2 : c'.switches.map (fun p => (p.1, { p.2 with flow_table := ([] : List FlowEntry) })) =
      c.switches.map (fun p => (p.1, { p.2 with flow_table := ([] : List FlowEntry) })) := h1
  have h3 := congrArg (fun l => (dget l n).isSome) h2
  simp only [dget_clearSw] at h3
  simpa using h3

theorem foldInstall_keys (ms : List (String × Intent)) :
    ∀ (c0 c1 : Controller), foldInstall ms c0 = .ok c1 →
      c1.topo = c0.topo ∧ c1.active_flows = c0.active_flows ∧
        ∀ n, (dget c1.switches n).isSome = (dget c0.switches n).isSome := by
  induction ms with
  | nil =>
    intro c0 c1 h
    rw [foldInstall_nil] at h
    injection h with h2
    rw [h2]
    exact ⟨rfl, rfl, fun _ => rfl⟩
  | cons fm rest ih =>
    intro c0 c1 h
    obtain ⟨cm, hi, hrest⟩ := foldInstall_ok_cons fm rest c0 c1 h
    obtain ⟨ht1, hf1, hs1⟩ := install_keys c0 cm fm.2 hi
    obtain ⟨ht2, hf2, hs2⟩ := ih cm c1 hrest
    exact ⟨ht2.trans ht1, hf2.trans hf1, fun n => (hs2 n).trans (hs1 n)⟩

theorem recompute_keys (c c' : Controller) (h : recompute c = .ok c') :
    c'.topo = c.topo ∧ c'.active_flows = c.active_flows ∧
      ∀ n, (dget c'.switches n).isSome = (dget c.switches n).isSome := by
  unfold recompute at h
  obtain ⟨ht, hf, hs⟩ := foldInstall_keys _ _ _ h
  refine ⟨ht, hf, fun n => (hs n).trans ?_⟩
  show (dget ((clearC c).switches) n).isSome = (dget c.switches n).isSome
  unfold clearC
  rw [dget_clearSw]
  simp

theorem runOps_ok_cons (op : Op) (ops : List Op) (c c' : Controller)
    (h : runOps c (op :: ops) = .ok c') :
    ∃ c1, step c op = .ok c1 ∧ runOps c1 ops = .ok c' := by
  unfold runOps at h ⊢
  rw [List.foldlM_cons] at h
  cases hi : step c op with
  | error e => rw [hi] at h; cases h
  | ok c1 =>
    rw [hi] at h
    exact ⟨c1, rfl, h⟩

theorem step_keys (c c1 : Controller) (op : Op) (hWF : c.topo.WF)
    (h : step c op = .ok c1) :
    c1.topo.WF ∧
    (∀ n, (dget c1.switches n).isSome = true ↔
      ((dget c.switches n).isSome = true ∨ op = Op.add_node n)) ∧
    (∀ n, (dget c1.topo.adj n).isSome = true ↔
      ((dget c.topo.adj n).isSome = true ∨ op = Op.add_node n ∨
        ∃ s d w, op = Op.add_link s d w ∧ (n = s ∨ n = d))) := by
  cases op with
  | add_node n0 =>
    have h3 : Except.ok (ε := Unit) (addNodeC c n0) = .ok c1 := h
    injection h3 with h2
    rw [← h2]
    refine ⟨WF_add_node _ _ hWF, fun n => ?_, fun n => ?_⟩
    · show (dget (dset c.switches n0 ⟨n0, []⟩) n).isSome = true ↔ _
      rw [dget_dset]
      by_cases hn : n = n0
      · simp [hn]
      · have hn2 : ¬ Op.add_node n0 = Op.add_node n := by
          intro hc
          injection hc with hc2
          exact hn hc2.symm
        simp [hn, hn2]
    · show (dget (c.topo.add_node n0).adj n).isSome = true ↔ _
      rw [keys_add_node]
      constructor
      · rintro (rfl | hk)
        · exact Or.inr (Or.inl rfl)
        · exact Or.inl hk
      · rintro (hk | hop | ⟨s, d, w, hop, _⟩)
        · exact Or.inr hk
        · injection hop with h4
          exact Or.inl h4.symm
        · cases hop
  | add_link s0 d0 w0 =>
    have h3 : Except.ok (ε := Unit) (addLinkC c s0 d0 w0) = .ok c1 := h
    injection h3 with h2
    rw [← h2]
    refine ⟨WF_add_link _ _ _ _ hWF, fun n => ?_, fun n => ?_⟩
    · have hn2 : ¬ Op.add_link s0 d0 w0 = Op.add_node n := by intro hc; cases hc
      simp [addLinkC, hn2]
    · show (dget (c.topo.add_link s0 d0 w0).adj n).isSome = true ↔ _
      rw [keys_add_link]
      constructor
      · rintro (hn1 | hn1 | hk)
        · exact Or.inr (Or.inr ⟨s0, d0, w0, rfl, Or.inl hn1⟩)
        · exact Or.inr (Or.inr ⟨s0, d0, w0, rfl, Or.inr hn1⟩)
        · exact Or.inl hk
      · rintro (hk | hop | ⟨s, d, w, hop, hn⟩)
        · exact Or.inr (Or.inr hk)
        · cases hop
        · injection hop with ha hb hc2
          rcases hn with h5 | h5
          · exact Or.inl (by rw [ha]; exact h5)
          · exact Or.inr (Or.inl (by rw [hb]; exact h5))
  | remove_link s0 d0 =>
    have h4 : recompute
        { c with
          topo := c.topo.remove_link s0 d0
          link_util := ddel (ddel c.link_util (s0, d0)) (d0, s0) } = .ok c1 := h
    obtain ⟨ht, _, hs⟩ := recompute_keys _ _ h4
    have htopo : c1.topo = c.topo.remove_link s0 d0 := ht
    refine ⟨?_, fun n => ?_, fun n => ?_⟩
    · rw [htopo]
      exact WF_remove_link _ _ _ hWF
    · have hn2 : ¬ Op.remove_link s0 d0 = Op.add_node n := by intro hc; cases hc
      rw [hs n]
      simp [hn2]
    · have hn2 : ¬ Op.remove_link s0 d0 = Op.add_node n := by intro hc; cases hc
      have hn3 : ¬ ∃ s d w, Op.remove_link s0 d0 = Op.add_link s d w ∧ (n = s ∨ n = d) := by
        rintro ⟨s, d, w, hc, _⟩
        cases hc
      rw [htopo, keys_remove]
      simp [hn2, hn3]
  | inject_flow fid s0 d0 p0 cr0 =>
    have h3 : injectFlow c fid s0 d0 p0 cr0 = .ok c1 := h
    unfold injectFlow at h3
    by_cases hpr : optTruthy (c.topo.shortest_path s0 d0) = false
    · rw [if_pos hpr] at h3
      injection h3 with h2
      rw [← h2]
      refine ⟨hWF, fun n => ?_, fun n => ?_⟩
      · have hx : ¬ Op.inject_flow fid s0 d0 p0 cr0 = Op.add_node n := by intro hc; cases hc
        simp [hx]
      · have hx : ¬ Op.inject_flow fid s0 d0 p0 cr0 = Op.add_node n := by intro hc; cases hc
        have hy : ¬ ∃ s d w, Op.inject_flow fid s0 d0 p0 cr0 = Op.add_link s d w ∧
            (n = s ∨ n = d) := by
          rintro ⟨s, d, w, hc, _⟩
          cases hc
        simp [hx, hy]
    · rw [if_neg hpr] at h3
      obtain ⟨ht, _, hs⟩ := recompute_keys _ _ h3
      have hssp := sspGo_spec s0 d0 ((c.topo.shortest_path s0 d0).getD [])
        c.topo ((c.topo.shortest_path s0 d0).getD []) c.topo none none hWF
        (fun _ _ => rfl) (fun _ => rfl) (Or.inl rfl)
      have htopo : c1.topo =
          (c.topo.second_shortest_path s0 d0 ((c.topo.shortest_path s0 d0).getD [])).1 := ht
      refine ⟨?_, fun n => ?_, fun n => ?_⟩
      · rw [htopo]
        exact WF_ext c.topo _ hssp.1 hssp.2.1 hWF
      · have hx : ¬ Op.inject_flow fid s0 d0 p0 cr0 = Op.add_node n := by intro hc; cases hc
        rw [hs n]
        simp [hx]
      · have hx : ¬ Op.inject_flow fid s0 d0 p0 cr0 = Op.add_node n := by intro hc; cases hc
        have hy : ¬ ∃ s d w, Op.inject_flow fid s0 d0 p0 cr0 = Op.add_link s d w ∧
            (n = s ∨ n = d) := by
          rintro ⟨s, d, w, hc, _⟩
          cases hc
        have hk : (dget (c.topo.second_shortest_path s0 d0
            ((c.topo.shortest_path s0 d0).getD [])).1.adj n).isSome
            = (dget c.topo.adj n).isSome := hssp.2.1 n
        rw [htopo, hk]
        simp [hx, hy]
  | query_route s0 d0 =>
    have h3 : Except.ok (ε := Unit) c = .ok c1 := h
    injection h3 with h2
    rw [← h2]
    refine ⟨hWF, fun n => ?_, fun n => ?_⟩
    · have hx : ¬ Op.query_route s0 d0 = Op.add_node n := by intro hc; cases hc
      simp [hx]
    · have hx : ¬ Op.query_route s0 d0 = Op.add_node n := by intro hc; cases hc
      have hy : ¬ ∃ s d w, Op.query_route s0 d0 = Op.add_link s d w ∧ (n = s ∨ n = d) := by
        rintro ⟨s, d, w, hc, _⟩
        cases hc
      simp [hx, hy]
  | query_flow fid =>
    have h3 : Except.ok (ε := Unit) c = .ok c1 := h
    injection h3 with h2
    rw [← h2]
    refine ⟨hWF, fun n => ?_, fun n => ?_⟩
    · have hx : ¬ Op.query_flow fid = Op.add_node n := by intro hc; cases hc
      simp [hx]
    · have hx : ¬ Op.query_flow fid = Op.add_node n := by intro hc; cases hc
      have hy : ¬ ∃ s d w, Op.query_flow fid = Op.add_link s d w ∧ (n = s ∨ n = d) := by
        rintro ⟨s, d, w, hc, _⟩
        cases hc
      simp [hx, hy]

theorem runOps_keys (ops : List Op) :
    ∀ (c0 c' : Controller), c0.topo.WF → runOps c0 ops = .ok c' →
      ∀ n,
        ((dget c'.switches n).isSome = true ↔
          ((dget c0.switches n).isSome = true ∨ Op.add_node n ∈ ops)) ∧
        ((dget c'.topo.adj n).isSome = true ↔
          ((dget c0.topo.adj n).isSome = true ∨ Op.add_node n ∈ ops ∨
            ∃ s d w, Op.add_link s d w ∈ ops ∧ (n = s ∨ n = d))) := by
  induction ops with
  | nil =>
    intro c0 c' _ h n
    have h3 : Except.ok (ε := Unit) c0 = .ok c' := h
    injection h3 with h2
    rw [← h2]
    constructor <;> simp
  | cons op rest ih =>
    intro c0 c' hWF h n
    obtain ⟨c1, hstep, hrest⟩ := runOps_ok_cons op rest c0 c' h
    obtain ⟨hWF1, hsw, htp⟩ := step_keys c0 c1 op hWF hstep
    obtain ⟨ihs, iht⟩ := ih c1 c' hWF1 hrest n
    constructor
    · rw [ihs, hsw n]
      constructor
      · rintro ((hk | hop) | hm)
        · exact Or.inl hk
        · exact Or.inr (List.mem_cons.mpr (Or.inl hop.symm))
        · exact Or.inr (List.mem_cons_of_mem op hm)
      · rintro (hk | hm)
        · exact Or.inl (Or.inl hk)
        · rcases List.mem_cons.mp hm with heq | hm2
          · exact Or.inl (Or.inr heq.symm)
          · exact Or.inr hm2
    · rw [iht, htp n]
      constructor
      · rintro ((hk | hop | ⟨s, d, w, hop, hn⟩) | hm | ⟨s, d, w, hmem, hn⟩)
        · exact Or.inl hk
        · exact Or.inr (Or.inl (List.mem_cons.mpr (Or.inl hop.symm)))
        · exact Or.inr (Or.inr ⟨s, d, w, List.mem_cons.mpr (Or.inl hop.symm), hn⟩)
        · exact Or.inr (Or.inl (List.mem_cons_of_mem op hm))
        · exact Or.inr (Or.inr ⟨s, d, w, List.mem_cons_of_mem op hmem, hn⟩)
      · rintro (hk | hm | ⟨s, d, w, hmem, hn⟩)
        · exact Or.inl (Or.inl hk)
        · rcases List.mem_cons.mp hm with heq | hm2
          · exact Or.inl (Or.inr (Or.inl heq.symm))
          · exact Or.inr (Or.inl hm2)
        · rcases List.mem_cons.mp hmem with heq | hm2
          · exact Or.inl (Or.inr (Or.inr ⟨s, d, w, heq.symm, hn⟩))
          · exact Or.inr (Or.inr ⟨s, d, w, hm2, hn⟩)

/-- C10: after any crash-free run from the fresh controller, node `n` has a
switch (and so a flow table) exactly when some `add_node n` occurred, while
`n` is a topology key exactly when it was added as a node or appeared as an
endpoint of some `add_link`; a node introduced only by `add_link` is
routable but has no switch. -/
theorem c10_switch_iff_add_node (ops : List Op) (c' : Controller)
    (h : runOps initController ops = .ok c') (n : Node) :
    ((dget c'.switches n).isSome = true ↔ Op.add_node n ∈ ops) ∧
    ((dget c'.topo.adj n).isSome = true ↔
      (Op.add_node n ∈ ops ∨ ∃ s d w, Op.add_link s d w ∈ ops ∧ (n = s ∨ n = d))) := by
  obtain ⟨h1, h2⟩ := runOps_keys ops initController c' WF_empty h n
  constructor
  · rw [h1]
    simp [initController]
  · rw [h2]
    simp [initController, Topology.empty]

theorem c10_witness :
    runOps initController crashFreeOps = .ok cFree ∧
    (((dget cFree.switches "B").isSome = true ↔ Op.add_node "B" ∈ crashFreeOps) ∧
     ((dget cFree.topo.adj "B").isSome = true ↔
       (Op.add_node "B" ∈ crashFreeOps ∨
        ∃ s d w, Op.add_link s d w ∈ crashFreeOps ∧ ("B" = s ∨ "B" = d)))) :=
  ⟨by decide, c10_switch_iff_add_node crashFreeOps cFree (by decide) "B"⟩

end SDN
